import Mathlib

/-!
Verification of the `lnwallet/chanfunding` coin-selection code and the
UTXO lease manager of the lnd wallet.

Amounts (`ltcutil.Amount`, Go `int64`) are modelled as `Int`; the
quantities involved in coin selection (satoshi values) are far below the
`int64` range in the regimes the spec describes, so wraparound is not
modelled.  Go's `/` on `int64` truncates toward zero, which is `Int.tdiv`.

The fee estimator (`input.TxWeightEstimator` and
`chainfee.SatPerKWeight.FeeForWeight`, package code of this repository not
present under `src/`) is abstracted: `CoinSelect` and
`CoinSelectSubtractFees` are parametrised over the function
`calcFees : List Coin → Except SelErr (Int × Int)` that plays the role of
`calculateFees(selectedUtxos, feeRate)`, returning the pair
`(requiredFeeNoChange, requiredFeeWithChange)` or an error.  All theorems
about the selection logic quantify over this function, so they hold for
every fee rate and every weight estimator.
-/

/-- A spendable UTXO, mirroring `Coin` of `coin_select.go`: it wraps a
`wire.TxOut` (`Value`, `PkScript`) and a `wire.OutPoint` (hash, index);
the script is kept as a byte list and the outpoint hash abstracted to a
natural number. -/
structure Coin where
  value : Int
  pkScript : List Nat
  txid : Nat
  index : Nat
deriving DecidableEq

/-- The error values that the chanfunding selection functions can return:
`ErrInsufficientFunds` (struct fields `amountAvailable`, `amountSelected`,
in source order — note the source constructs it as
`&ErrInsufficientFunds{amt, satSelected}`, and its `Error()` message
prints the first field as the needed amount and the second as the amount
actually available), `errUnsupportedInput`, the fee sanity `fmt.Errorf`
of `sanityCheckFee`, and the below-dust `fmt.Errorf` of
`CoinSelectSubtractFees`.  `loopLimit` is the fuel-exhaustion marker of
the shallow embedding of the `for` loop in `CoinSelect`; it is proved
unreachable. -/
inductive SelErr where
  | insufficientFunds (amountAvailable amountSelected : Int)
  | unsupportedInput (pkScript : List Nat)
  | feeSanity (fee totalOut : Int)
  | outputBelowDust (outputAmt fee dustLimit : Int)
  | loopLimit
deriving DecidableEq

/-- Total value of a list of coins. -/
def coinSum : List Coin → Int
  | [] => 0
  | c :: cs => c.value + coinSum cs

/-- Loop body of `selectInputs`: iterates over the remaining coins with
the running total `satSelected`, returning the accumulated total and the
consumed prefix (`coins[:i+1]` in the source) once the total reaches
`amt`, and `&ErrInsufficientFunds{amt, satSelected}` if the coins run
out. -/
def selectInputsAux (amt : Int) : Int → List Coin → Except SelErr (Int × List Coin)
  | satSelected, [] => .error (.insufficientFunds amt satSelected)
  | satSelected, c :: cs =>
    let s := satSelected + c.value
    if amt ≤ s then
      .ok (s, [c])
    else
      match selectInputsAux amt s cs with
      | .ok (t, sel) => .ok (t, c :: sel)
      | .error e => .error e

/-- `selectInputs` of `coin_select.go`: greedily accumulate coins in the
given order until the total reaches `amt`. -/
def selectInputs (amt : Int) (coins : List Coin) : Except SelErr (Int × List Coin) :=
  selectInputsAux amt 0 coins

/-- `sanityCheckFee` of `coin_select.go`: fail if more than 20% of the
total output value goes to fees.  Go's `fee > totalOut/5` on `int64`
truncates toward zero, hence `Int.tdiv`. -/
def sanityCheckFee (totalOut fee : Int) : Except SelErr Unit :=
  if Int.tdiv totalOut 5 < fee then .error (.feeSanity fee totalOut) else .ok ()

/-- The type of the abstract fee estimator standing for
`calculateFees(·, feeRate)`: from the selected coins it produces
`(requiredFeeNoChange, requiredFeeWithChange)`, or the `PkScript` of an
input whose script type it cannot weigh (`errUnsupportedInput`). -/
def CalcFees : Type := List Coin → Except (List Nat) (Int × Int)

/-- The change decision of `CoinSelect`'s switch statement followed by
the dust collapse: change is `overShootAmt - requiredFeeWithChange` when
the overshoot strictly exceeds the with-change fee and `0` otherwise,
and any change below the dust limit is collapsed to `0`. -/
def computeChange (dustLimit overShootAmt requiredFeeWithChange : Int) : Int :=
  let changeAmt :=
    if requiredFeeWithChange < overShootAmt then
      overShootAmt - requiredFeeWithChange
    else 0
  if changeAmt < dustLimit then 0 else changeAmt

/-- Loop of `CoinSelect`, with explicit fuel for the `for { ... continue ... }`
loop and, as a ghost component, the working target `amtNeeded` at which the
returned selection was made (the source drops this value; the projection
`CoinSelect` below discards it). -/
def coinSelectLoop (calcFees : CalcFees) (amt dustLimit : Int) (coins : List Coin) :
    Nat → Int → Except SelErr (List Coin × Int × Int)
  | 0, _ => .error .loopLimit
  | fuel + 1, amtNeeded =>
    match selectInputs amtNeeded coins with
    | .error e => .error e
    | .ok (totalSat, selectedUtxos) =>
      match calcFees selectedUtxos with
      | .error pk => .error (.unsupportedInput pk)
      | .ok (requiredFeeNoChange, requiredFeeWithChange) =>
        let overShootAmt := totalSat - amt
        if overShootAmt < requiredFeeNoChange then
          coinSelectLoop calcFees amt dustLimit coins fuel (amt + requiredFeeNoChange)
        else
          let changeAmt := computeChange dustLimit overShootAmt requiredFeeWithChange
          let totalOut := amt + changeAmt
          match sanityCheckFee totalOut (totalSat - totalOut) with
          | .error e => .error e
          | .ok _ => .ok (selectedUtxos, changeAmt, amtNeeded)

/-- `CoinSelect` of `coin_select.go`, additionally reporting the final
working target (third component).  The fuel `coins.length + 1` suffices:
see `coinSelect_terminates`. -/
def CoinSelectT (calcFees : CalcFees) (amt dustLimit : Int) (coins : List Coin) :
    Except SelErr (List Coin × Int × Int) :=
  coinSelectLoop calcFees amt dustLimit coins (coins.length + 1) amt

/-- `CoinSelect` of `coin_select.go`: returns the selected coins and the
change amount. -/
def CoinSelect (calcFees : CalcFees) (amt dustLimit : Int) (coins : List Coin) :
    Except SelErr (List Coin × Int) :=
  (CoinSelectT calcFees amt dustLimit coins).map (fun r => (r.1, r.2.1))

/-- `CoinSelectSubtractFees` of `coin_select.go`: select once for `amt`,
subtract the no-change fee from the output, and only add a change output
when both resulting outputs clear the dust limit.  Returns the selected
coins, the output amount and the change amount. -/
def CoinSelectSubtractFees (calcFees : CalcFees) (amt dustLimit : Int)
    (coins : List Coin) : Except SelErr (List Coin × Int × Int) :=
  match selectInputs amt coins with
  | .error e => .error e
  | .ok (totalSat, selectedUtxos) =>
    match calcFees selectedUtxos with
    | .error pk => .error (.unsupportedInput pk)
    | .ok (requiredFeeNoChange, requiredFeeWithChange) =>
      let outputAmt := totalSat - requiredFeeNoChange
      let changeAmt : Int := 0
      if outputAmt < dustLimit then
        .error (.outputBelowDust outputAmt requiredFeeNoChange dustLimit)
      else
        let newOutput := amt - requiredFeeWithChange
        let newChange := totalSat - amt
        let pair :=
          if dustLimit ≤ newChange ∧ dustLimit ≤ newOutput then
            (newOutput, newChange)
          else (outputAmt, changeAmt)
        let totalOut := pair.1 + pair.2
        match sanityCheckFee totalOut (totalSat - totalOut) with
        | .error e => .error e
        | .ok _ => .ok (selectedUtxos, pair.1, pair.2)

/-- A constant fee estimator, used to instantiate the abstract
`calcFees` parameter on concrete inputs. -/
def feesConst (fnc fwc : Int) : CalcFees :=
  fun _ => .ok (fnc, fwc)

/-- A fee estimator is well formed when the no-change fee is nonnegative
and adding a change output never lowers the fee; the source estimator
(`calculateFees` at a nonnegative fee rate) has this shape, since the
with-change estimate adds the weight of one P2WKH output. -/
def FeesWellFormed (calcFees : CalcFees) : Prop :=
  ∀ sel fnc fwc, calcFees sel = .ok (fnc, fwc) → 0 ≤ fnc ∧ fnc ≤ fwc

deriving instance DecidableEq for Except

/-- Modelled from the spec: the `Lease` record of the LeaseManager
(`(leaseID, outpoint, expiresAt)`); the implementation of
`LeaseOutput`/`ReleaseOutput`/`ListLeases` is declared in the walletrpc
proto but its body is not among the provided sources.  The opaque 32-byte
lease ID is abstracted to a natural number, the outpoint to a pair
(hash, index), timestamps to naturals. -/
structure Lease where
  leaseID : Nat
  outpoint : Nat × Nat
  expiresAt : Nat
deriving DecidableEq

/-- Modelled from the spec: errors of the LeaseManager contract
(`LeaseConflict(outpoint, holder)` and not-found on release). -/
inductive LeaseErr where
  | leaseConflict (outpoint : Nat × Nat) (holder : Nat)
  | notFound
deriving DecidableEq

/-- Modelled from the spec: the lease table, keyed by outpoint.  A state
is the list of stored leases; expiry is evaluated lazily at lookup time
(a lease is live at `now` iff `now < expiresAt`). -/
def findLease (s : List Lease) (op : Nat × Nat) : Option Lease :=
  s.find? (fun l => decide (l.outpoint = op))

/-- Modelled from the spec: `Lock(leaseID, outpoint, ttl)` at time `now`
creates a new lease or extends an existing one owned by the same
`leaseID`; it fails with `LeaseConflict` iff the outpoint is already
leased under a different `leaseID` and that lease has not expired.
Returns the new expiry `now + ttl` and the updated table. -/
def lock (s : List Lease) (now id : Nat) (op : Nat × Nat) (ttl : Nat) :
    Except LeaseErr (Nat × List Lease) :=
  match findLease s op with
  | some l =>
    if l.leaseID ≠ id ∧ now < l.expiresAt then
      .error (.leaseConflict op l.leaseID)
    else
      .ok (now + ttl, ⟨id, op, now + ttl⟩ :: s.filter (fun m => decide (m.outpoint ≠ op)))
  | none => .ok (now + ttl, ⟨id, op, now + ttl⟩ :: s)

/-- Modelled from the spec: `Release(leaseID, outpoint)` releases only a
live lease owned by `leaseID`; an expired lease is treated as absent. -/
def release (s : List Lease) (now id : Nat) (op : Nat × Nat) :
    Except LeaseErr (List Lease) :=
  match findLease s op with
  | some l =>
    if l.leaseID = id ∧ now < l.expiresAt then
      .ok (s.filter (fun m => decide (m.outpoint ≠ op)))
    else .error .notFound
  | none => .error .notFound

/-- Modelled from the spec: `ListLeases()` returns all currently live
leases; expired ones are treated as absent. -/
def listLeases (s : List Lease) (now : Nat) : List Lease :=
  s.filter (fun l => decide (now < l.expiresAt))

/-- An operation applied to the lease table, with the wall-clock time at
which it runs. -/
inductive LMOp where
  | opLock (now id : Nat) (op : Nat × Nat) (ttl : Nat)
  | opRelease (now id : Nat) (op : Nat × Nat)

/-- Apply one operation; a failed operation leaves the table unchanged. -/
def applyOp (s : List Lease) : LMOp → List Lease
  | .opLock now id op ttl =>
    match lock s now id op ttl with
    | .ok (_, s') => s'
    | .error _ => s
  | .opRelease now id op =>
    match release s now id op with
    | .ok s' => s'
    | .error _ => s

/-- The lease table reached by running a trace of operations from the
empty table: the reachable states of the lease manager. -/
def runOps (ops : List LMOp) : List Lease :=
  ops.foldl applyOp []

/-- No two entries of the table share an outpoint. -/
def DistinctOutpoints (s : List Lease) : Prop :=
  s.Pairwise (fun a b => a.outpoint ≠ b.outpoint)

/-- Marker predicate: a selection result is the fuel-exhaustion marker of
the loop embedding. -/
def hitsLimit {α : Type} : Except SelErr α → Bool
  | .error .loopLimit => true
  | _ => false

/-- A 100-satoshi P2WKH-style coin used for concrete instantiations. -/
def coinA : Coin := ⟨100, [], 0, 0⟩

/-- First coin of the insufficient-funds scenario (Scenario B). -/
def coinB1 : Coin := ⟨20000, [], 0, 0⟩

/-- Second coin of the insufficient-funds scenario (Scenario B). -/
def coinB2 : Coin := ⟨30000, [], 0, 1⟩

/-- A 5-satoshi coin used for the zero-target corner case. -/
def coin5 : Coin := ⟨5, [], 0, 0⟩

/-- A 640-satoshi coin used for the subtract-fees scenarios. -/
def coin640 : Coin := ⟨640, [], 0, 0⟩

/-- Successful input selection returns a nonempty prefix of the coin
list whose total, added to the starting accumulator, first reaches the
target: every strictly shorter nonempty prefix falls short. -/
theorem selectInputsAux_ok : ∀ (coins : List Coin) (amt acc t : Int) (sel : List Coin),
    selectInputsAux amt acc coins = .ok (t, sel) →
    0 < sel.length ∧ sel = coins.take sel.length ∧ t = acc + coinSum sel ∧ amt ≤ t ∧
      ∀ j, 0 < j → j < sel.length → acc + coinSum (coins.take j) < amt := by
  intro coins
  induction coins with
  | nil =>
    intro amt acc t sel h
    simp [selectInputsAux] at h
  | cons c cs ih =>
    intro amt acc t sel h
    simp only [selectInputsAux] at h
    by_cases hle : amt ≤ acc + c.value
    · rw [if_pos hle] at h
      injection h with h'
      injection h' with ht hsel
      subst ht
      subst hsel
      refine ⟨by simp, by simp, by simp [coinSum], hle, ?_⟩
      intro j hj0 hjlt
      simp at hjlt
      omega
    · rw [if_neg hle] at h
      cases hrec : selectInputsAux amt (acc + c.value) cs with
      | error e => rw [hrec] at h; simp at h
      | ok p =>
        obtain ⟨t', sel'⟩ := p
        rw [hrec] at h
        simp only at h
        injection h with h'
        injection h' with ht hsel
        subst ht
        subst hsel
        obtain ⟨hpos, htake, hsum, hamt, hmin⟩ := ih amt (acc + c.value) t' sel' hrec
        refine ⟨by simp, ?_, ?_, hamt, ?_⟩
        · simp only [List.length_cons, List.take_succ_cons]
          exact congrArg (c :: ·) htake
        · simp only [coinSum]
          omega
        · intro j hj0 hjlt
          simp only [List.length_cons] at hjlt
          cases j with
          | zero => omega
          | succ j' =>
            cases j' with
            | zero =>
              simp only [List.take_succ_cons, List.take_zero, coinSum]
              omega
            | succ j'' =>
              have hm := hmin (j'' + 1) (by omega) (by omega)
              simp only [List.take_succ_cons, coinSum]
              omega

/-- Failed input selection reports the target amount in the first field
and the value of all candidates (plus the starting accumulator) in the
second field. -/
theorem selectInputsAux_err : ∀ (coins : List Coin) (amt acc : Int) (e : SelErr),
    selectInputsAux amt acc coins = .error e →
    e = .insufficientFunds amt (acc + coinSum coins) := by
  intro coins
  induction coins with
  | nil =>
    intro amt acc e h
    simp only [selectInputsAux] at h
    injection h with h'
    simp [coinSum, ← h']
  | cons c cs ih =>
    intro amt acc e h
    simp only [selectInputsAux] at h
    by_cases hle : amt ≤ acc + c.value
    · rw [if_pos hle] at h
      simp at h
    · rw [if_neg hle] at h
      cases hrec : selectInputsAux amt (acc + c.value) cs with
      | error e' =>
        rw [hrec] at h
        simp only at h
        injection h with h'
        subst h'
        have := ih amt (acc + c.value) e' hrec
        simp only [coinSum, this]
        congr 1
        omega
      | ok p =>
        obtain ⟨t', sel'⟩ := p
        rw [hrec] at h
        simp at h

/-- If one selection run reaches total `t` and a second run targets an
amount strictly above `t`, the second run (when it succeeds) consumes a
strictly longer prefix. -/
theorem selectInputs_growth (coins : List Coin) (a a' t t' : Int)
    (sel sel' : List Coin)
    (h : selectInputs a coins = .ok (t, sel))
    (h' : selectInputs a' coins = .ok (t', sel'))
    (hlt : t < a') : sel.length < sel'.length := by
  obtain ⟨hpos, htake, hsum, hamt, hmin⟩ :=
    selectInputsAux_ok coins a 0 t sel h
  obtain ⟨hpos', htake', hsum', hamt', hmin'⟩ :=
    selectInputsAux_ok coins a' 0 t' sel' h'
  by_contra hcon
  push_neg at hcon
  rcases Nat.lt_or_ge sel'.length sel.length with hlt2 | hge
  · have hm := hmin sel'.length hpos' hlt2
    rw [← htake'] at hm
    omega
  · have hlen : sel'.length = sel.length := by omega
    have : sel' = sel := by rw [htake, htake', hlen]
    subst this
    omega

/-- Inversion of a successful `coinSelectLoop` run: the returned coins
come from a `selectInputs` call at the returned working target, the
overshoot covers the no-change fee, the change is the dust-collapsed
switch result, and the fee sanity check passed. -/
theorem coinSelectLoop_ok_inv (calcFees : CalcFees) (amt dustLimit : Int)
    (coins : List Coin) :
    ∀ (fuel : Nat) (a : Int) (sel : List Coin) (change aN : Int),
      coinSelectLoop calcFees amt dustLimit coins fuel a = .ok (sel, change, aN) →
      ∃ t fnc fwc,
        selectInputs aN coins = .ok (t, sel) ∧
        calcFees sel = .ok (fnc, fwc) ∧
        fnc ≤ t - amt ∧
        change = computeChange dustLimit (t - amt) fwc ∧
        sanityCheckFee (amt + change) (t - (amt + change)) = .ok () := by
  intro fuel
  induction fuel with
  | zero =>
    intro a sel change aN h
    simp [coinSelectLoop] at h
  | succ fuel ih =>
    intro a sel change aN h
    simp only [coinSelectLoop] at h
    cases hsi : selectInputs a coins with
    | error e => rw [hsi] at h; simp at h
    | ok p =>
      obtain ⟨totalSat, selU⟩ := p
      rw [hsi] at h
      simp only at h
      cases hcf : calcFees selU with
      | error pk => rw [hcf] at h; simp at h
      | ok q =>
        obtain ⟨fnc, fwc⟩ := q
        rw [hcf] at h
        simp only at h
        by_cases hov : totalSat - amt < fnc
        · rw [if_pos hov] at h
          exact ih _ _ _ _ h
        · rw [if_neg hov] at h
          cases hsc : sanityCheckFee
              (amt + computeChange dustLimit (totalSat - amt) fwc)
              (totalSat - (amt + computeChange dustLimit (totalSat - amt) fwc)) with
          | error e => rw [hsc] at h; simp at h
          | ok u =>
            rw [hsc] at h
            simp only at h
            injection h with h'
            injection h' with hsel h''
            injection h'' with hchange haN
            subst hsel
            subst haN
            subst hchange
            exact ⟨totalSat, fnc, fwc, hsi, hcf, by omega, rfl, hsc⟩

/-- A successful selection consumes at most all candidates. -/
theorem selectInputs_length_le (amt t : Int) (coins sel : List Coin)
    (h : selectInputs amt coins = .ok (t, sel)) : sel.length ≤ coins.length := by
  obtain ⟨-, htake, -, -, -⟩ := selectInputsAux_ok coins amt 0 t sel h
  have := congrArg List.length htake
  simp at this
  omega

/-- Fuel `coins.length + 1` never runs out: each restart of the loop
re-selects at a target strictly above the previous total, so the selected
prefix strictly grows, which can happen at most `coins.length` times. -/
theorem coinSelectLoop_ne_loopLimit (calcFees : CalcFees) (amt dustLimit : Int)
    (coins : List Coin) :
    ∀ (fuel : Nat) (a : Int), 1 ≤ fuel →
      (∀ t sel, selectInputs a coins = .ok (t, sel) →
        coins.length + 2 ≤ fuel + sel.length) →
      coinSelectLoop calcFees amt dustLimit coins fuel a ≠ .error .loopLimit := by
  intro fuel
  induction fuel with
  | zero =>
    intro a h1 _
    omega
  | succ fuel ih =>
    intro a _ hinv
    simp only [coinSelectLoop]
    cases hsi : selectInputs a coins with
    | error e =>
      have := selectInputsAux_err coins a 0 e hsi
      subst this
      simp
    | ok p =>
      obtain ⟨totalSat, selU⟩ := p
      simp only
      cases hcf : calcFees selU with
      | error pk => simp
      | ok q =>
        obtain ⟨fnc, fwc⟩ := q
        simp only
        by_cases hov : totalSat - amt < fnc
        · rw [if_pos hov]
          have hlen : selU.length ≤ coins.length :=
            selectInputs_length_le a totalSat coins selU hsi
          have hcur := hinv totalSat selU hsi
          refine ih (amt + fnc) (by omega) ?_
          intro t' sel' h'
          have hgrow : selU.length < sel'.length := by
            refine selectInputs_growth coins a (amt + fnc) totalSat t' selU sel' hsi h' ?_
            omega
          omega
        · rw [if_neg hov]
          cases hsc : sanityCheckFee
              (amt + computeChange dustLimit (totalSat - amt) fwc)
              (totalSat - (amt + computeChange dustLimit (totalSat - amt) fwc)) with
          | error e =>
            simp only [sanityCheckFee] at hsc
            by_cases hgt : Int.tdiv (amt + computeChange dustLimit (totalSat - amt) fwc) 5 <
                totalSat - (amt + computeChange dustLimit (totalSat - amt) fwc)
            · rw [if_pos hgt] at hsc
              injection hsc with hsc'
              subst hsc'
              simp
            · rw [if_neg hgt] at hsc
              simp at hsc
          | ok u => simp

/-- If the initial `selectInputs` call fails, `CoinSelect` returns that
error unchanged. -/
theorem coinSelectLoop_err_first (calcFees : CalcFees) (amt dustLimit : Int)
    (coins : List Coin) (fuel : Nat) (e : SelErr)
    (h : selectInputs amt coins = .error e) :
    coinSelectLoop calcFees amt dustLimit coins (fuel + 1) amt = .error e := by
  simp only [coinSelectLoop]
  rw [h]

/-- Inversion of a successful `CoinSelectSubtractFees` run: the coins
come from a single `selectInputs` call at `amt`, the no-change output
`t - fnc` clears the dust limit, the output/change pair follows the
both-above-dust decision, and the fee sanity check passed. -/
theorem subtractFees_ok_inv (calcFees : CalcFees) (amt dustLimit : Int)
    (coins sel : List Coin) (out change : Int)
    (h : CoinSelectSubtractFees calcFees amt dustLimit coins = .ok (sel, out, change)) :
    ∃ t fnc fwc,
      selectInputs amt coins = .ok (t, sel) ∧
      calcFees sel = .ok (fnc, fwc) ∧
      dustLimit ≤ t - fnc ∧
      ((dustLimit ≤ t - amt ∧ dustLimit ≤ amt - fwc) →
        out = amt - fwc ∧ change = t - amt) ∧
      (¬(dustLimit ≤ t - amt ∧ dustLimit ≤ amt - fwc) →
        out = t - fnc ∧ change = 0) ∧
      sanityCheckFee (out + change) (t - (out + change)) = .ok () := by
  simp only [CoinSelectSubtractFees] at h
  cases hsi : selectInputs amt coins with
  | error e => rw [hsi] at h; simp at h
  | ok p =>
    obtain ⟨totalSat, selU⟩ := p
    rw [hsi] at h
    simp only at h
    cases hcf : calcFees selU with
    | error pk => rw [hcf] at h; simp at h
    | ok q =>
      obtain ⟨fnc, fwc⟩ := q
      rw [hcf] at h
      simp only at h
      by_cases hdust : totalSat - fnc < dustLimit
      · rw [if_pos hdust] at h
        simp at h
      · rw [if_neg hdust] at h
        by_cases hboth : dustLimit ≤ totalSat - amt ∧ dustLimit ≤ amt - fwc
        · rw [if_pos hboth] at h
          cases hsc : sanityCheckFee ((amt - fwc) + (totalSat - amt))
              (totalSat - ((amt - fwc) + (totalSat - amt))) with
          | error e => rw [hsc] at h; simp at h
          | ok u =>
            rw [hsc] at h
            simp only at h
            injection h with h'
            injection h' with hsel h''
            injection h'' with hout hchange
            subst hsel
            subst hout
            subst hchange
            refine ⟨totalSat, fnc, fwc, rfl, hcf, by omega, fun _ => ⟨rfl, rfl⟩,
              fun hc => absurd hboth hc, hsc⟩
        · rw [if_neg hboth] at h
          cases hsc : sanityCheckFee ((totalSat - fnc) + 0)
              (totalSat - ((totalSat - fnc) + 0)) with
          | error e => rw [hsc] at h; simp at h
          | ok u =>
            rw [hsc] at h
            simp only at h
            injection h with h'
            injection h' with hsel h''
            injection h'' with hout hchange
            subst hsel
            subst hout
            subst hchange
            exact ⟨totalSat, fnc, fwc, rfl, hcf, by omega,
              fun hc => absurd hc hboth, fun _ => ⟨rfl, rfl⟩, hsc⟩

/-- Every operation preserves the one-lease-per-outpoint shape of the
lease table. -/
theorem distinct_applyOp (s : List Lease) (o : LMOp)
    (h : DistinctOutpoints s) : DistinctOutpoints (applyOp s o) := by
  unfold DistinctOutpoints at h ⊢
  cases o with
  | opLock now id op ttl =>
    simp only [applyOp]
    cases hl : lock s now id op ttl with
    | error e => exact h
    | ok p =>
      obtain ⟨exp, s'⟩ := p
      simp only
      simp only [lock] at hl
      cases hf : findLease s op with
      | some l =>
        rw [hf] at hl
        simp only at hl
        by_cases hc : l.leaseID ≠ id ∧ now < l.expiresAt
        · rw [if_pos hc] at hl; simp at hl
        · rw [if_neg hc] at hl
          injection hl with hl'
          injection hl' with he hs
          subst hs
          rw [List.pairwise_cons]
          refine ⟨?_, List.Pairwise.sublist (List.filter_sublist s) h⟩
          intro m hm
          have hmem := List.of_mem_filter hm
          simp at hmem
          exact fun e => hmem e.symm
      | none =>
        rw [hf] at hl
        simp only at hl
        injection hl with hl'
        injection hl' with he hs
        subst hs
        rw [List.pairwise_cons]
        refine ⟨?_, h⟩
        intro m hm
        have := List.find?_eq_none.mp hf m hm
        simp at this
        exact fun e => this e.symm
  | opRelease now id op =>
    simp only [applyOp]
    cases hr : release s now id op with
    | error e => exact h
    | ok s' =>
      simp only
      simp only [release] at hr
      cases hf : findLease s op with
      | some l =>
        rw [hf] at hr
        simp only at hr
        by_cases hc : l.leaseID = id ∧ now < l.expiresAt
        · rw [if_pos hc] at hr
          injection hr with hr'
          subst hr'
          exact List.Pairwise.sublist (List.filter_sublist s) h
        · rw [if_neg hc] at hr; simp at hr
      | none => rw [hf] at hr; simp at hr

/-- Every reachable lease table has at most one lease per outpoint. -/
theorem runOps_distinct_aux : ∀ (ops : List LMOp) (s : List Lease),
    DistinctOutpoints s → DistinctOutpoints (ops.foldl applyOp s) := by
  intro ops
  induction ops with
  | nil => intro s h; exact h
  | cons o os ih => intro s h; exact ih _ (distinct_applyOp s o h)

/-- The table reached from the empty table by any trace has at most one
lease per outpoint. -/
theorem runOps_distinct (ops : List LMOp) : DistinctOutpoints (runOps ops) :=
  runOps_distinct_aux ops [] List.Pairwise.nil

/-- The change amount computed by `CoinSelect` is never negative. -/
theorem computeChange_nonneg (dustLimit overShootAmt fwc : Int) :
    0 ≤ computeChange dustLimit overShootAmt fwc := by
  simp only [computeChange]
  by_cases h2 : fwc < overShootAmt
  · simp only [if_pos h2]
    by_cases h3 : overShootAmt - fwc < dustLimit
    · simp only [if_pos h3]; omega
    · simp only [if_neg h3]; omega
  · simp only [if_neg h2]
    by_cases h3 : (0 : Int) < dustLimit
    · simp only [if_pos h3]; omega
    · simp only [if_neg h3]; omega

/-- With a nonnegative with-change fee and nonnegative overshoot, the
change amount never exceeds the overshoot. -/
theorem computeChange_le (dustLimit overShootAmt fwc : Int) (h0 : 0 ≤ fwc)
    (h1 : 0 ≤ overShootAmt) :
    computeChange dustLimit overShootAmt fwc ≤ overShootAmt := by
  simp only [computeChange]
  by_cases h2 : fwc < overShootAmt
  · simp only [if_pos h2]
    by_cases h3 : overShootAmt - fwc < dustLimit
    · simp only [if_pos h3]; omega
    · simp only [if_neg h3]; omega
  · simp only [if_neg h2]
    by_cases h3 : (0 : Int) < dustLimit
    · simp only [if_pos h3]; omega
    · simp only [if_neg h3]; omega

/-- The change amount is either zero or clears the dust limit. -/
theorem computeChange_cases (dustLimit overShootAmt fwc : Int) :
    computeChange dustLimit overShootAmt fwc = 0 ∨
      dustLimit ≤ computeChange dustLimit overShootAmt fwc := by
  simp only [computeChange]
  by_cases h2 : fwc < overShootAmt
  · simp only [if_pos h2]
    by_cases h3 : overShootAmt - fwc < dustLimit
    · simp [if_pos h3]
    · simp only [if_neg h3]; right; omega
  · simp only [if_neg h2]
    by_cases h3 : (0 : Int) < dustLimit
    · simp [if_pos h3]
    · simp only [if_neg h3]; right; omega

/-- A passed sanity check bounds the fee by one fifth of the output
value: `5 * fee ≤ totalOut` whenever `totalOut` is nonnegative. -/
theorem sanity_ok_cap (totalOut fee : Int) (h0 : 0 ≤ totalOut)
    (h : sanityCheckFee totalOut fee = .ok ()) : 5 * fee ≤ totalOut := by
  simp only [sanityCheckFee] at h
  by_cases hgt : Int.tdiv totalOut 5 < fee
  · rw [if_pos hgt] at h; simp at h
  · rw [Int.tdiv_eq_ediv h0 (by omega)] at hgt
    omega

/-- The sanity check rejects any fee strictly above one fifth of a
nonnegative output value, reporting the fee and the output value. -/
theorem sanity_err (totalOut fee : Int) (h0 : 0 ≤ totalOut)
    (h : totalOut < 5 * fee) :
    sanityCheckFee totalOut fee = .error (.feeSanity fee totalOut) := by
  simp only [sanityCheckFee]
  rw [if_pos]
  rw [Int.tdiv_eq_ediv h0 (by omega)]
  omega

/-- Inversion of a successful `CoinSelect` run, phrased in terms of the
selection total of the final round. -/
theorem CoinSelect_ok_inv (calcFees : CalcFees) (amt dustLimit : Int)
    (coins sel : List Coin) (change : Int)
    (h : CoinSelect calcFees amt dustLimit coins = .ok (sel, change)) :
    ∃ t fnc fwc aN,
      selectInputs aN coins = .ok (t, sel) ∧
      calcFees sel = .ok (fnc, fwc) ∧
      fnc ≤ t - amt ∧
      change = computeChange dustLimit (t - amt) fwc ∧
      sanityCheckFee (amt + change) (t - (amt + change)) = .ok () := by
  unfold CoinSelect at h
  cases hT : CoinSelectT calcFees amt dustLimit coins with
  | error e => rw [hT] at h; simp [Except.map] at h
  | ok r =>
    obtain ⟨sel', change', aN⟩ := r
    rw [hT] at h
    simp only [Except.map] at h
    injection h with h'
    injection h' with hsel h''
    subst hsel
    subst h''
    obtain ⟨t, fnc, fwc, hsi, hcf, hov, hch, hsc⟩ :=
      coinSelectLoop_ok_inv calcFees amt dustLimit coins (coins.length + 1) amt
        sel' change' aN hT
    exact ⟨t, fnc, fwc, aN, hsi, hcf, hov, hch, hsc⟩

/-- A successful lock always stores exactly one lease on the locked
outpoint, with expiry `now + ttl`, on top of the other outpoints'
entries. -/
theorem lock_ok_shape (s : List Lease) (now id : Nat) (op : Nat × Nat)
    (ttl e : Nat) (s' : List Lease)
    (h : lock s now id op ttl = .ok (e, s')) :
    e = now + ttl ∧
      s' = ⟨id, op, now + ttl⟩ :: s.filter (fun m => decide (m.outpoint ≠ op)) := by
  simp only [lock] at h
  cases hf : findLease s op with
  | some l =>
    rw [hf] at h
    simp only at h
    by_cases hc : l.leaseID ≠ id ∧ now < l.expiresAt
    · rw [if_pos hc] at h; simp at h
    · rw [if_neg hc] at h
      injection h with h'
      injection h' with he hs
      exact ⟨he.symm, hs.symm⟩
  | none =>
    rw [hf] at h
    simp only at h
    injection h with h'
    injection h' with he hs
    refine ⟨he.symm, ?_⟩
    rw [← hs]
    have : s.filter (fun m => decide (m.outpoint ≠ op)) = s := by
      rw [List.filter_eq_self]
      intro m hm
      have := List.find?_eq_none.mp hf m hm
      simp at this ⊢
      exact this
    rw [this]

/-- The all-zero constant estimator is well formed. -/
theorem feesConst_zero_wf : FeesWellFormed (feesConst 0 0) := by
  intro sel fnc fwc h
  simp only [feesConst] at h
  injection h with h'
  injection h' with h1 h2
  constructor
  · omega
  · omega

/-- C1: every successful selection, in both `CoinSelect` and
`CoinSelectSubtractFees`, pays a fee of at most 20% of its total output
value (`5 * fee ≤ totalOut`), and `sanityCheckFee` rejects any candidate
result whose implied fee exceeds 20% of the (nonnegative) output value
with a fee-sanity error carrying the fee and the output value. -/
theorem coinSelect_fee_within_cap :
    (∀ (calcFees : CalcFees) (amt dustLimit : Int) (coins sel : List Coin)
      (change : Int), 0 ≤ amt →
      CoinSelect calcFees amt dustLimit coins = .ok (sel, change) →
      5 * (coinSum sel - (amt + change)) ≤ amt + change) ∧
    (∀ (calcFees : CalcFees) (amt dustLimit : Int) (coins sel : List Coin)
      (out change : Int), 0 ≤ dustLimit →
      CoinSelectSubtractFees calcFees amt dustLimit coins = .ok (sel, out, change) →
      5 * (coinSum sel - (out + change)) ≤ out + change) ∧
    (∀ totalOut fee : Int, 0 ≤ totalOut → totalOut < 5 * fee →
      sanityCheckFee totalOut fee = .error (.feeSanity fee totalOut)) := by
  refine ⟨?_, ?_, ?_⟩
  · intro calcFees amt dustLimit coins sel change hamt hok
    obtain ⟨t, fnc, fwc, aN, hsi, hcf, hov, hch, hsc⟩ :=
      CoinSelect_ok_inv calcFees amt dustLimit coins sel change hok
    obtain ⟨-, -, hsum, -, -⟩ := selectInputsAux_ok coins aN 0 t sel hsi
    have hchn : 0 ≤ change := by
      rw [hch]; exact computeChange_nonneg dustLimit (t - amt) fwc
    have hcap := sanity_ok_cap (amt + change) (t - (amt + change)) (by omega) hsc
    omega
  · intro calcFees amt dustLimit coins sel out change hdust hok
    obtain ⟨t, fnc, fwc, hsi, hcf, hd, hboth, hnot, hsc⟩ :=
      subtractFees_ok_inv calcFees amt dustLimit coins sel out change hok
    obtain ⟨-, -, hsum, -, -⟩ := selectInputsAux_ok coins amt 0 t sel hsi
    have houtc : 0 ≤ out + change := by
      by_cases hb : dustLimit ≤ t - amt ∧ dustLimit ≤ amt - fwc
      · obtain ⟨ho, hc⟩ := hboth hb
        omega
      · obtain ⟨ho, hc⟩ := hnot hb
        omega
    have hcap := sanity_ok_cap (out + change) (t - (out + change)) houtc hsc
    omega
  · intro totalOut fee h0 hlt
    exact sanity_err totalOut fee h0 hlt

/-- Witness for C1: a concrete successful `CoinSelect` run on a single
100-satoshi coin at target 100 pays a fee within the 20% cap. -/
theorem coinSelect_fee_within_cap_witness :
    5 * (coinSum [coinA] - (100 + 0)) ≤ 100 + 0 :=
  coinSelect_fee_within_cap.1 (feesConst 0 0) 100 10 [coinA] [coinA] 0
    (by decide) (by decide)

/-- C2: every reachable lease table has at most one lease per outpoint,
two leases of a reachable table that are live on the same outpoint at the
same time always carry the same lease ID, and a `lock` by a different ID
while the holder's lease is unexpired fails with a lease conflict naming
the holder. -/
theorem lease_mutual_exclusion :
    (∀ ops : List LMOp, DistinctOutpoints (runOps ops)) ∧
    (∀ (ops : List LMOp) (now : Nat) (op : Nat × Nat) (l1 l2 : Lease),
      l1 ∈ runOps ops → l2 ∈ runOps ops → l1.outpoint = op → l2.outpoint = op →
      now < l1.expiresAt → now < l2.expiresAt → l1.leaseID = l2.leaseID) ∧
    (∀ (s : List Lease) (now id ttl : Nat) (op : Nat × Nat) (l : Lease),
      findLease s op = some l → l.leaseID ≠ id → now < l.expiresAt →
      lock s now id op ttl = .error (.leaseConflict op l.leaseID)) := by
  refine ⟨runOps_distinct, ?_, ?_⟩
  · intro ops now op l1 l2 h1 h2 ho1 ho2 _ _
    by_cases heq : l1 = l2
    · rw [heq]
    · have hpair : List.Pairwise (fun a b : Lease => a.outpoint ≠ b.outpoint)
          (runOps ops) := runOps_distinct ops
      have hx := List.Pairwise.forall (fun a b hab => fun e => hab e.symm) hpair h1 h2 heq
      exact absurd (ho1.trans ho2.symm) hx
  · intro s now id ttl op l hf hne hlive
    simp only [lock]
    rw [hf]
    simp only
    rw [if_pos ⟨hne, hlive⟩]

/-- Witness for C2: with outpoint (7,0) leased to ID 1 until time 60, a
lock attempt by ID 2 at time 10 fails with a conflict naming holder 1;
and on the trace that created that lease, any two leases live on (7,0)
at time 10 carry the same ID. -/
theorem lease_mutual_exclusion_witness :
    (⟨1, (7, 0), 60⟩ : Lease).leaseID = (⟨1, (7, 0), 60⟩ : Lease).leaseID ∧
    lock [⟨1, (7, 0), 60⟩] 10 2 (7, 0) 60 = .error (.leaseConflict (7, 0) 1) :=
  ⟨lease_mutual_exclusion.2.1 [.opLock 0 1 (7, 0) 60] 10 (7, 0)
      ⟨1, (7, 0), 60⟩ ⟨1, (7, 0), 60⟩ (by decide) (by decide) (by decide)
      (by decide) (by decide) (by decide),
    lease_mutual_exclusion.2.2 [⟨1, (7, 0), 60⟩] 10 2 60 (7, 0) ⟨1, (7, 0), 60⟩
      (by decide) (by decide) (by decide)⟩

/-- C3 counterexample: with a zero fee estimate (fee rate 0), the
selection of a single 100-satoshi coin for target 100 succeeds while
paying a fee of exactly 0, so the fee is not strictly positive: the total
selected value does not strictly exceed the total output value. -/
theorem fee_strictly_positive_cex :
    CoinSelect (feesConst 0 0) 100 10 [coinA] = .ok ([coinA], 0) ∧
    ¬ (100 + 0 < coinSum [coinA]) := by
  constructor
  · decide
  · decide

/-- C3 amended: for a well-formed fee estimate (nonnegative no-change
fee, with-change fee at least the no-change fee — true of the source
estimator at any nonnegative fee rate), every successful selection in
either mode pays a nonnegative fee: the total selected value is at least
(not necessarily strictly above) the total output value. -/
theorem fee_nonneg (calcFees : CalcFees) (hcf : FeesWellFormed calcFees)
    (amt dustLimit : Int) (coins sel : List Coin) (out change : Int) :
    (CoinSelect calcFees amt dustLimit coins = .ok (sel, change) →
      amt + change ≤ coinSum sel) ∧
    (CoinSelectSubtractFees calcFees amt dustLimit coins = .ok (sel, out, change) →
      out + change ≤ coinSum sel) := by
  constructor
  · intro hok
    obtain ⟨t, fnc, fwc, aN, hsi, hcfe, hov, hch, hsc⟩ :=
      CoinSelect_ok_inv calcFees amt dustLimit coins sel change hok
    obtain ⟨-, -, hsum, -, -⟩ := selectInputsAux_ok coins aN 0 t sel hsi
    obtain ⟨hf0, hff⟩ := hcf sel fnc fwc hcfe
    have hle : change ≤ t - amt := by
      rw [hch]
      exact computeChange_le dustLimit (t - amt) fwc (by omega) (by omega)
    omega
  · intro hok
    obtain ⟨t, fnc, fwc, hsi, hcfe, hd, hboth, hnot, hsc⟩ :=
      subtractFees_ok_inv calcFees amt dustLimit coins sel out change hok
    obtain ⟨-, -, hsum, -, -⟩ := selectInputsAux_ok coins amt 0 t sel hsi
    obtain ⟨hf0, hff⟩ := hcf sel fnc fwc hcfe
    by_cases hb : dustLimit ≤ t - amt ∧ dustLimit ≤ amt - fwc
    · obtain ⟨ho, hc⟩ := hboth hb
      omega
    · obtain ⟨ho, hc⟩ := hnot hb
      omega

/-- Witness for C3's amended statement: the concrete run of the
counterexample pays a nonnegative fee. -/
theorem fee_nonneg_witness : (100 : Int) + 0 ≤ coinSum [coinA] :=
  (fee_nonneg (feesConst 0 0) feesConst_zero_wf 100 10 [coinA] [coinA] 0 0).1
    (by decide)

/-- C4: when the candidates are exhausted before the working target is
reached, `selectInputs` fails with `ErrInsufficientFunds` whose first
field (printed as the needed amount by its `Error()` message) is the
target and whose second field (printed as the amount available) is the
total value of all candidates; `CoinSelect` returns that error
unchanged. -/
theorem insufficient_funds_reported :
    (∀ (amt : Int) (coins : List Coin) (e : SelErr),
      selectInputs amt coins = .error e →
      e = .insufficientFunds amt (coinSum coins)) ∧
    (∀ (calcFees : CalcFees) (amt dustLimit : Int) (coins : List Coin) (e : SelErr),
      selectInputs amt coins = .error e →
      CoinSelect calcFees amt dustLimit coins = .error e) := by
  constructor
  · intro amt coins e h
    have := selectInputsAux_err coins amt 0 e h
    simpa using this
  · intro calcFees amt dustLimit coins e h
    unfold CoinSelect CoinSelectT
    rw [coinSelectLoop_err_first calcFees amt dustLimit coins coins.length e h]
    rfl

/-- Witness for C4 (Scenario B): candidates worth 20000 and 30000
against target 120000 make `CoinSelect` fail with needed 120000 and
only 50000 available. -/
theorem insufficient_funds_reported_witness :
    CoinSelect (feesConst 0 0) 120000 500 [coinB1, coinB2] =
      .error (.insufficientFunds 120000 50000) :=
  insufficient_funds_reported.2 (feesConst 0 0) 120000 500 [coinB1, coinB2]
    (.insufficientFunds 120000 50000) (by decide)

/-- C5 counterexample: with fee estimates (100, 150), requested amount
600, dust limit 50 and a single 640-satoshi coin, the subtract-fees
selection succeeds without a change output, yet the primary output is
540 = totalSelected − feeNoChange, not 500 = requestedAmount −
feeNoChange as the claim states. -/
theorem subtract_fees_output_cex :
    CoinSelectSubtractFees (feesConst 100 150) 600 50 [coin640] =
      .ok ([coin640], 540, 0) ∧
    (540 : Int) ≠ 600 - 100 := by
  constructor
  · decide
  · decide

/-- C5 amended: a successful `CoinSelectSubtractFees` run creates a
change output exactly when both the reduced primary output
(`amt − feeWithChange`) and the leftover (`coinSum sel − amt`) are at
least the dust limit; otherwise no change output is created and the
single primary output equals the TOTAL SELECTED value minus the
no-change fee (`coinSum sel − feeNoChange`), not the requested amount
minus the no-change fee. -/
theorem subtract_fees_change_decision (calcFees : CalcFees) (amt dustLimit : Int)
    (coins sel : List Coin) (out change : Int)
    (h : CoinSelectSubtractFees calcFees amt dustLimit coins = .ok (sel, out, change)) :
    ∃ fnc fwc, calcFees sel = .ok (fnc, fwc) ∧
      ((dustLimit ≤ coinSum sel - amt ∧ dustLimit ≤ amt - fwc) →
        out = amt - fwc ∧ change = coinSum sel - amt) ∧
      (¬(dustLimit ≤ coinSum sel - amt ∧ dustLimit ≤ amt - fwc) →
        out = coinSum sel - fnc ∧ change = 0) := by
  obtain ⟨t, fnc, fwc, hsi, hcfe, hd, hboth, hnot, hsc⟩ :=
    subtractFees_ok_inv calcFees amt dustLimit coins sel out change h
  obtain ⟨-, -, hsum, -, -⟩ := selectInputsAux_ok coins amt 0 t sel hsi
  have ht : t = coinSum sel := by omega
  subst ht
  exact ⟨fnc, fwc, hcfe, hboth, hnot⟩

/-- Witness for C5's amended statement, on the counterexample input. -/
theorem subtract_fees_change_decision_witness :
    ∃ fnc fwc, feesConst 100 150 [coin640] = .ok (fnc, fwc) ∧
      (((50 : Int) ≤ coinSum [coin640] - 600 ∧ (50 : Int) ≤ 600 - fwc) →
        (540 : Int) = 600 - fwc ∧ (0 : Int) = coinSum [coin640] - 600) ∧
      (¬((50 : Int) ≤ coinSum [coin640] - 600 ∧ (50 : Int) ≤ 600 - fwc) →
        (540 : Int) = coinSum [coin640] - fnc ∧ (0 : Int) = 0) :=
  subtract_fees_change_decision (feesConst 100 150) 600 50 [coin640] [coin640]
    540 0 (by decide)

/-- C6: in both modes, the change amount of a successful selection is
either zero or at least the dust limit — change computed below the dust
limit is collapsed to zero while the same coins stay selected. -/
theorem change_zero_or_dust (calcFees : CalcFees) (amt dustLimit : Int)
    (coins sel : List Coin) (out change : Int) :
    (CoinSelect calcFees amt dustLimit coins = .ok (sel, change) →
      change = 0 ∨ dustLimit ≤ change) ∧
    (CoinSelectSubtractFees calcFees amt dustLimit coins = .ok (sel, out, change) →
      change = 0 ∨ dustLimit ≤ change) := by
  constructor
  · intro hok
    obtain ⟨t, fnc, fwc, aN, hsi, hcfe, hov, hch, hsc⟩ :=
      CoinSelect_ok_inv calcFees amt dustLimit coins sel change hok
    rw [hch]
    exact computeChange_cases dustLimit (t - amt) fwc
  · intro hok
    obtain ⟨t, fnc, fwc, hsi, hcfe, hd, hboth, hnot, hsc⟩ :=
      subtractFees_ok_inv calcFees amt dustLimit coins sel out change hok
    by_cases hb : dustLimit ≤ t - amt ∧ dustLimit ≤ amt - fwc
    · right
      obtain ⟨-, hc⟩ := hboth hb
      omega
    · left
      exact (hnot hb).2

/-- Witness for C6: a concrete successful run returns change 0. -/
theorem change_zero_or_dust_witness :
    (0 : Int) = 0 ∨ (10 : Int) ≤ 0 :=
  (change_zero_or_dust (feesConst 0 0) 100 10 [coinA] [coinA] 0 0).1 (by decide)

/-- C7: the re-selection loop of `CoinSelect` terminates on every input:
with fuel `coins.length + 1` — that is, after at most `coins.length`
restarts at a target raised to `amt + requiredFeeNoChange` — the loop
embedding always returns a real result or error, never the
fuel-exhaustion marker. -/
theorem coinSelect_terminates (calcFees : CalcFees) (amt dustLimit : Int)
    (coins : List Coin) :
    hitsLimit (CoinSelectT calcFees amt dustLimit coins) = false ∧
    hitsLimit (CoinSelect calcFees amt dustLimit coins) = false := by
  have hT : coinSelectLoop calcFees amt dustLimit coins (coins.length + 1) amt ≠
      .error .loopLimit := by
    refine coinSelectLoop_ne_loopLimit calcFees amt dustLimit coins
      (coins.length + 1) amt (by omega) ?_
    intro t sel hsi
    have h1 : 0 < sel.length := (selectInputsAux_ok coins amt 0 t sel hsi).1
    have h2 : sel.length ≤ coins.length := selectInputs_length_le amt t coins sel hsi
    omega
  constructor
  · cases hc : CoinSelectT calcFees amt dustLimit coins with
    | ok r => rfl
    | error e =>
      cases e with
      | loopLimit => exact absurd hc hT
      | insufficientFunds a b => rfl
      | unsupportedInput pk => rfl
      | feeSanity f o => rfl
      | outputBelowDust o f d => rfl
  · unfold CoinSelect
    cases hc : CoinSelectT calcFees amt dustLimit coins with
    | ok r => rfl
    | error e =>
      cases e with
      | loopLimit => exact absurd hc hT
      | insufficientFunds a b => rfl
      | unsupportedInput pk => rfl
      | feeSanity f o => rfl
      | outputBelowDust o f d => rfl

/-- C8 counterexample: at target 0 (fee estimate 0), `CoinSelect`
succeeds selecting one coin with final working target 0, yet the empty
prefix already reaches that target, so the selected coins are not the
shortest prefix whose accumulated value is at least the final working
target. -/
theorem selection_order_cex :
    CoinSelectT (feesConst 0 0) 0 1 [coin5] = .ok ([coin5], 5, 0) ∧
    ¬ (∀ j : Nat, j < List.length [coin5] → coinSum (List.take j [coin5]) < 0) := by
  constructor
  · decide
  · intro hall
    exact absurd (hall 0 (by decide)) (by decide)

/-- C8 amended: a successful `CoinSelect` run never reorders candidates:
the selected coins form a prefix of the candidate sequence, namely the
shortest NONEMPTY prefix whose accumulated value is at least the final
working target (the loop always takes at least one coin, so for targets
at most zero the empty prefix would be shorter). -/
theorem selection_take_shortest (calcFees : CalcFees) (amt dustLimit : Int)
    (coins sel : List Coin) (change target : Int)
    (h : CoinSelectT calcFees amt dustLimit coins = .ok (sel, change, target)) :
    sel = coins.take sel.length ∧ 0 < sel.length ∧ target ≤ coinSum sel ∧
      ∀ j, 0 < j → j < sel.length → coinSum (coins.take j) < target := by
  obtain ⟨t, fnc, fwc, hsi, -, -, -, -⟩ :=
    coinSelectLoop_ok_inv calcFees amt dustLimit coins (coins.length + 1) amt
      sel change target h
  obtain ⟨hpos, htake, hsum, hamt, hmin⟩ := selectInputsAux_ok coins target 0 t sel hsi
  refine ⟨htake, hpos, by omega, ?_⟩
  intro j hj0 hj1
  have := hmin j hj0 hj1
  omega

/-- Witness for C8's amended statement: a successful run at target 100
selects the shortest nonempty prefix reaching 100. -/
theorem selection_take_shortest_witness :
    [coinA] = List.take (List.length [coinA]) [coinA] ∧
    0 < List.length [coinA] ∧ (100 : Int) ≤ coinSum [coinA] ∧
    ∀ j, 0 < j → j < List.length [coinA] → coinSum (List.take j [coinA]) < 100 :=
  selection_take_shortest (feesConst 0 0) 100 10 [coinA] [coinA] 0 100 (by decide)

/-- C9: re-locking an outpoint with the same lease ID (before the first
lease expires) extends rather than duplicates the lease: the second lock
succeeds with expiry `now2 + ttl`, exactly one lease for the outpoint
exists afterwards (and it is live with the updated expiry), and the
number of leases reported by `listLeases` is unchanged relative to the
state after the first call. -/
theorem lock_extends_idempotent (s : List Lease) (now1 now2 id ttl : Nat)
    (op : Nat × Nat) (e1 : Nat) (s1 : List Lease)
    (h1 : lock s now1 id op ttl = .ok (e1, s1))
    (hle : now1 ≤ now2) (hlt : now2 < now1 + ttl) :
    ∃ s2, lock s1 now2 id op ttl = .ok (now2 + ttl, s2) ∧
      (∃ l, l ∈ s2 ∧ l.outpoint = op ∧ l.leaseID = id ∧
        l.expiresAt = now2 + ttl ∧ now2 < l.expiresAt) ∧
      (∀ l1 l2, l1 ∈ s2 → l2 ∈ s2 → l1.outpoint = op → l2.outpoint = op →
        l1 = l2) ∧
      (listLeases s2 now2).length = (listLeases s1 now2).length := by
  obtain ⟨he1, hs1⟩ := lock_ok_shape s now1 id op ttl e1 s1 h1
  subst hs1
  have hfilter : (Lease.mk id op (now1 + ttl) ::
        s.filter (fun m => decide (m.outpoint ≠ op))).filter
        (fun m => decide (m.outpoint ≠ op)) =
      s.filter (fun m => decide (m.outpoint ≠ op)) := by
    rw [List.filter_cons_of_neg (by simp)]
    rw [List.filter_eq_self]
    intro m hm
    have h2 := List.of_mem_filter hm
    exact h2
  have hfind : findLease
      (Lease.mk id op (now1 + ttl) :: s.filter (fun m => decide (m.outpoint ≠ op)))
      op = some (Lease.mk id op (now1 + ttl)) := by
    unfold findLease
    apply List.find?_cons_of_pos
    simp
  refine ⟨Lease.mk id op (now2 + ttl) :: s.filter (fun m => decide (m.outpoint ≠ op)),
    ?_, ?_, ?_, ?_⟩
  · simp only [lock]
    rw [hfind]
    simp only
    rw [if_neg (by simp)]
    rw [hfilter]
  · refine ⟨Lease.mk id op (now2 + ttl), List.mem_cons_self _ _, rfl, rfl, rfl, ?_⟩
    show now2 < now2 + ttl
    omega
  · intro l1 l2 hm1 hm2 ho1 ho2
    have h1' : l1 = Lease.mk id op (now2 + ttl) := by
      cases List.mem_cons.mp hm1 with
      | inl h => exact h
      | inr h =>
        have := List.of_mem_filter h
        simp at this
        exact absurd ho1 this
    have h2' : l2 = Lease.mk id op (now2 + ttl) := by
      cases List.mem_cons.mp hm2 with
      | inl h => exact h
      | inr h =>
        have := List.of_mem_filter h
        simp at this
        exact absurd ho2 this
    rw [h1', h2']
  · unfold listLeases
    rw [List.filter_cons_of_pos, List.filter_cons_of_pos]
    · simp
    · simp
      omega
    · simp
      omega

/-- Witness for C9: locking (7,0) as ID 1 at time 0 for 60 and again at
time 30 extends the lease to expiry 90 without duplicating it. -/
theorem lock_extends_idempotent_witness :
    ∃ s2, lock [⟨1, (7, 0), 60⟩] 30 1 (7, 0) 60 = .ok (30 + 60, s2) ∧
      (∃ l, l ∈ s2 ∧ l.outpoint = (7, 0) ∧ l.leaseID = 1 ∧
        l.expiresAt = 30 + 60 ∧ 30 < l.expiresAt) ∧
      (∀ l1 l2, l1 ∈ s2 → l2 ∈ s2 → l1.outpoint = (7, 0) → l2.outpoint = (7, 0) →
        l1 = l2) ∧
      (listLeases s2 30).length = (listLeases [⟨1, (7, 0), 60⟩] 30).length :=
  lock_extends_idempotent [] 0 30 1 60 (7, 0) 60 [⟨1, (7, 0), 60⟩]
    (by decide) (by decide) (by decide)

/-- C10: if input selection succeeds but the selected total minus the
no-change fee falls below the dust limit, `CoinSelectSubtractFees`
fails with the below-dust error (carrying the too-small output amount,
the no-change fee and the dust limit) and returns no selection. -/
theorem subtract_fees_below_dust_error (calcFees : CalcFees)
    (amt dustLimit t fnc fwc : Int) (coins sel : List Coin)
    (hsi : selectInputs amt coins = .ok (t, sel))
    (hcf : calcFees sel = .ok (fnc, fwc))
    (hlt : t - fnc < dustLimit) :
    CoinSelectSubtractFees calcFees amt dustLimit coins =
      .error (.outputBelowDust (t - fnc) fnc dustLimit) := by
  simp only [CoinSelectSubtractFees]
  rw [hsi]
  simp only
  rw [hcf]
  simp only
  rw [if_pos hlt]

/-- Witness for C10: one 640-satoshi coin, no-change fee 100 and dust
limit 600 make the 540-satoshi output fail the dust check. -/
theorem subtract_fees_below_dust_error_witness :
    CoinSelectSubtractFees (feesConst 100 150) 600 600 [coin640] =
      .error (.outputBelowDust (640 - 100) 100 600) :=
  subtract_fees_below_dust_error (feesConst 100 150) 600 600 640 100 150
    [coin640] [coin640] (by decide) (by decide) (by decide)
